import Mathlib

/-!
Shallow embedding of the yfinance-ux-mcp analytics core, with proofs of
the frozen specification claims.

Prices, strikes and implied volatilities are modelled as rationals;
open interest and volume as integers; the annualized volatilities that
the Python code computes with float square roots are modelled over the
reals via Real.sqrt applied to rational variances.
-/

/-! ## Symbol normalization (src/yfinance_ux/fetcher.py `normalize_symbol`,
src/mcp_yfinance_ux/common/symbols.py `normalize_ticker_symbol`) -/

/-- Python str.replace with single-character arguments, over the
character list of the string. -/
def replChar (a b : Char) (l : List Char) : List Char :=
  l.map (fun c => if c = a then b else c)

/-- Python str.strip on the default whitespace set. -/
def pyStrip (l : List Char) : List Char :=
  ((l.dropWhile Char.isWhitespace).reverse.dropWhile Char.isWhitespace).reverse

/-- Python str.isupper over the ASCII regime of ticker symbols: every
cased character is uppercase and at least one cased character exists. -/
def pyIsUpper (l : List Char) : Bool :=
  l.all (fun c => !c.isLower) && l.any (fun c => c.isUpper)

/-- Python str.upper over the ASCII regime of ticker symbols. -/
def pyUpper (l : List Char) : List Char :=
  l.map Char.toUpper

/-- Python str.split on a single separator character: splits at every
occurrence, producing one (possibly empty) segment more than the number
of separators. -/
def splitOn (sep : Char) : List Char → List (List Char)
  | [] => [[]]
  | c :: rest =>
      let r := splitOn sep rest
      if c = sep then [] :: r
      else
        match r with
        | [] => [[c]]
        | h :: t => (c :: h) :: t

/-- normalize_ticker_symbol from src/mcp_yfinance_ux/common/symbols.py:
slashes become hyphens; for a two-part split on a period the period is
kept exactly when the suffix is length >= 2 and isupper; otherwise every
period becomes a hyphen. -/
def normalize_ticker_symbol (symbol : String) : String :=
  let s := replChar '/' '-' symbol.toList
  if s.contains '.' then
    match splitOn '.' s with
    | [_, suf] =>
        if 2 ≤ suf.length ∧ pyIsUpper suf then String.mk s
        else String.mk (replChar '.' '-' s)
    | _ => String.mk (replChar '.' '-' s)
  else String.mk s

/-- Known single-letter exchange suffixes from normalize_symbol
(London, Frankfurt, Paris). -/
def single_letter_exchanges : List (List Char) :=
  [['L'], ['F'], ['P']]

/-- normalize_symbol from src/yfinance_ux/fetcher.py: empty/whitespace
input gives none; otherwise the stripped, uppercased input has slashes
replaced by hyphens, and for a two-part split on a period the period is
kept exactly when the suffix is a known single-letter exchange code or
is length >= 2 and isupper; otherwise every period becomes a hyphen. -/
def normalize_symbol (symbol : String) : Option String :=
  if pyStrip symbol.toList = [] then none
  else
    let s := replChar '/' '-' (pyUpper (pyStrip symbol.toList))
    if s.contains '.' then
      match splitOn '.' s with
      | [_, suf0] =>
          let suf := pyUpper suf0
          if (suf.length = 1 ∧ suf ∈ single_letter_exchanges)
              ∨ (2 ≤ suf.length ∧ pyIsUpper suf) then some (String.mk s)
          else some (String.mk (replChar '.' '-' s))
      | _ => some (String.mk (replChar '.' '-' s))
    else some (String.mk s)

/-! ## Momentum (src/yfinance_ux/calculations/momentum.py
`calculate_momentum`) -/

/-- One horizon of calculate_momentum: Python computes
`((current - anchor) / anchor * 100) if anchor else None`, so a missing
anchor and a zero anchor (both falsy) give an absent result. -/
def momentumOf (current : ℚ) (anchor : Option ℚ) : Option ℚ :=
  match anchor with
  | none => none
  | some a => if a ≠ 0 then some ((current - a) / a * 100) else none

/-- calculate_momentum from src/yfinance_ux/calculations/momentum.py,
abstracting the provider fetches: given the fast-info current price and
the three anchor prices (each possibly absent), returns the
(1w, 1m, 1y) momentum triple; a missing current price gives all-absent. -/
def calculate_momentum (current : Option ℚ) (p1w p1m p1y : Option ℚ) :
    Option ℚ × Option ℚ × Option ℚ :=
  match current with
  | none => (none, none, none)
  | some c => (momentumOf c p1w, momentumOf c p1m, momentumOf c p1y)

/-! ## Options chain model (src/yfinance_ux/services/options.py
`get_options_data`) -/

/-- One row of an options table: strike, openInterest, volume (after the
fillna(0) step) and impliedVolatility. -/
structure OptionRow where
  strike : ℚ
  oi : ℤ
  volume : ℤ
  iv : ℚ
  deriving DecidableEq

/-- int(table["openInterest"].sum()). -/
def oiTotal (rows : List OptionRow) : ℤ :=
  (rows.map OptionRow.oi).sum

/-- int(table["volume"].sum()) after fillna(0). -/
def volTotal (rows : List OptionRow) : ℤ :=
  (rows.map OptionRow.volume).sum

/-- pc_ratio_oi = put_oi_total / call_oi_total if call_oi_total > 0 else 0. -/
def pcRatioOi (calls puts : List OptionRow) : ℚ :=
  if 0 < oiTotal calls then (oiTotal puts : ℚ) / (oiTotal calls : ℚ) else 0

/-- pc_ratio_vol = put_volume_total / call_volume_total if
call_volume_total > 0 else 0. -/
def pcRatioVol (calls puts : List OptionRow) : ℚ :=
  if 0 < volTotal calls then (volTotal puts : ℚ) / (volTotal calls : ℚ) else 0

/-- calls[calls["strike"] < current_price]. -/
def callsItm (calls : List OptionRow) (price : ℚ) : List OptionRow :=
  calls.filter (fun r => decide (r.strike < price))

/-- calls[calls["strike"] >= current_price]. -/
def callsOtm (calls : List OptionRow) (price : ℚ) : List OptionRow :=
  calls.filter (fun r => decide (price ≤ r.strike))

/-- puts[puts["strike"] > current_price]. -/
def putsItm (puts : List OptionRow) (price : ℚ) : List OptionRow :=
  puts.filter (fun r => decide (price < r.strike))

/-- puts[puts["strike"] <= current_price]. -/
def putsOtm (puts : List OptionRow) (price : ℚ) : List OptionRow :=
  puts.filter (fun r => decide (r.strike ≤ price))

/-! ## Max pain and ATM strike selection -/

/-- The strike column of an options table. -/
def strikesOf (rows : List OptionRow) : List ℚ :=
  rows.map OptionRow.strike

/-- Insert a strike into a strictly-sorted list of distinct strikes,
keeping it sorted and duplicate-free. -/
def insertStrike (x : ℚ) : List ℚ → List ℚ
  | [] => [x]
  | y :: ys =>
      if x < y then x :: y :: ys
      else if x = y then y :: ys
      else y :: insertStrike x ys

/-- sorted(set(...)): ascending list of the distinct strikes. -/
def sortedStrikes (l : List ℚ) : List ℚ :=
  l.foldr insertStrike []

/-- sorted(set(calls["strike"]) | set(puts["strike"])): the candidate
strikes of the max-pain loop. -/
def candidateStrikes (calls puts : List OptionRow) : List ℚ :=
  sortedStrikes (strikesOf calls ++ strikesOf puts)

/-- The loop body of the max-pain calculation:
call_pain = sum of max(0, strike - c_strike) * c_oi over calls with
c_strike < strike, and symmetrically put_pain over puts with
p_strike > strike. -/
def painAt (calls puts : List OptionRow) (k : ℚ) : ℚ :=
  ((calls.filter (fun c => decide (c.strike < k))).map
      (fun c => max 0 (k - c.strike) * (c.oi : ℚ))).sum
  + ((puts.filter (fun p => decide (k < p.strike))).map
      (fun p => max 0 (p.strike - k) * (p.oi : ℚ))).sum

/-- The specification formula for total pain at a candidate strike:
sum over calls with strike < candidate of (candidate - call_strike) * call_OI
plus sum over puts with strike > candidate of (put_strike - candidate) * put_OI. -/
def painSpec (calls puts : List OptionRow) (k : ℚ) : ℚ :=
  ((calls.filter (fun c => decide (c.strike < k))).map
      (fun c => (k - c.strike) * (c.oi : ℚ))).sum
  + ((puts.filter (fun p => decide (k < p.strike))).map
      (fun p => (p.strike - k) * (p.oi : ℚ))).sum

/-- One step of a running strict-improvement minimum: the new candidate
replaces the best seen so far exactly when its figure of merit is
strictly smaller. -/
def selMin (f : ℚ → ℚ) (best k : ℚ) : ℚ :=
  if f k < f best then k else best

/-- The max-pain loop: best strike and best value so far (none models
the initial float("inf")), updated on strict improvement. -/
def maxPainGo (f : ℚ → ℚ) : List ℚ → ℚ → Option ℚ → ℚ
  | [], best, _ => best
  | k :: rest, best, minv =>
      let better :=
        match minv with
        | none => true
        | some v => decide (f k < v)
      if better then maxPainGo f rest k (some (f k))
      else maxPainGo f rest best minv

/-- max_pain_strike from get_options_data: iterate the sorted candidate
strikes starting from best = 0 and min value = infinity, keeping the
first strike that attains the minimum total pain. -/
def max_pain_strike (calls puts : List OptionRow) : ℚ :=
  maxPainGo (painAt calls puts) (candidateStrikes calls puts) 0 none

/-- atm_strike from get_options_data: the call strike whose distance to
the current price is minimal, the first such strike winning; computed
from the calls table only. -/
def atmStrike (calls : List OptionRow) (price : ℚ) : ℚ :=
  match strikesOf calls with
  | [] => 0
  | s :: rest => rest.foldl (selMin (fun t => |t - price|)) s

/-- puts[puts["strike"] == atm_strike]["impliedVolatility"].values[0]:
the IV of the first put row at the given strike, none when no such row
exists (the Python IndexError is caught by the surrounding handler). -/
def atmPutIv (puts : List OptionRow) (atm : ℚ) : Option ℚ :=
  ((puts.filter (fun r => decide (r.strike = atm))).head?).map OptionRow.iv

/-! ## Term structure (get_options_data) -/

/-- One listed expiration: its days-to-expiry and its calls table
(only the fields the term-structure block reads). -/
structure ExpChain where
  dte : ℤ
  calls : List OptionRow
  deriving DecidableEq

/-- ATM implied volatility of one expiration, scaled to percentage
points as in the source (iv * 100); the row at the ATM strike always
exists because the ATM strike is drawn from the calls table itself. -/
def atmIvOf (ch : ExpChain) (price : ℚ) : ℚ :=
  ((((ch.calls.filter
        (fun r => decide (r.strike = atmStrike ch.calls price))).head?).map
      OptionRow.iv).getD 0) * 100

/-- term_structure from get_options_data: built only when at least
three expirations are listed, from the first three (near/mid/far), as
(days-to-expiry, ATM IV) points. -/
def termStructure (exps : List ExpChain) (price : ℚ) : List (ℤ × ℚ) :=
  if 3 ≤ exps.length then
    (exps.take 3).map (fun ch => (ch.dte, atmIvOf ch price))
  else []

/-- contango from get_options_data:
term_structure[0].iv - term_structure[-1].iv when the term structure has
at least two points, else 0. -/
def contango (exps : List ExpChain) (price : ℚ) : ℚ :=
  let ts := termStructure exps price
  if 2 ≤ ts.length then
    ((ts.head?).map Prod.snd).getD 0 - ((ts.getLast?).map Prod.snd).getD 0
  else 0

/-! ## Returns, volatility and regression
(src/yfinance_ux/calculations/volatility.py `calculate_idio_vol`,
historical IV block of get_options_data) -/

/-- pandas Series.pct_change().dropna() on a close series: simple daily
percent-change returns, one fewer observation than closes. -/
def pctChange (closes : List ℚ) : List ℚ :=
  (closes.zip closes.tail).map (fun pc => (pc.2 - pc.1) / pc.1)

/-- Arithmetic mean of a list of rationals. -/
def meanQ (l : List ℚ) : ℚ :=
  l.sum / l.length

/-- pandas Series.std() squared: the sample variance with denominator
n - 1. -/
def sampleVar (l : List ℚ) : ℚ :=
  (l.map (fun x => (x - meanQ l) ^ 2)).sum / ((l.length : ℚ) - 1)

/-- pandas Series.std(): square root of the sample variance. -/
noncomputable def sampleStd (l : List ℚ) : ℝ :=
  Real.sqrt ((sampleVar l : ℚ) : ℝ)

/-- std(returns) * (252 ** 0.5) * 100: annualized percentage
volatility. -/
noncomputable def annualizedVol (l : List ℚ) : ℝ :=
  sampleStd l * Real.sqrt 252 * 100

/-- pandas Series.rolling(30): the length-30 windows of a return
series (windows with fewer than 30 observations yield NaN and are
skipped by max/min, so only full windows appear). -/
def windows30 (l : List ℚ) : List (List ℚ) :=
  (List.range (l.length + 1 - 30)).map (fun i => (l.drop i).take 30)

/-- Maximum of a list of reals (pandas Series.max with NaN windows
already excluded); 0 on the empty list, which no claim touches. -/
def listMaxR (l : List ℝ) : ℝ :=
  match l with
  | [] => 0
  | h :: t => t.foldl max h

/-- Minimum of a list of reals; 0 on the empty list. -/
def listMinR (l : List ℝ) : ℝ :=
  match l with
  | [] => 0
  | h :: t => t.foldl min h

/-- The historical IV context block of get_options_data: 30-day
realized volatility, 52-week rolling-volatility range and IV rank. -/
structure HistIv where
  histVol30d : ℝ
  ivHigh52w : ℝ
  ivLow52w : ℝ
  ivRank : ℝ

/-- hist_iv_data from get_options_data, abstracting the two history
fetches: the 3-month close series must be nonempty with at least 30
rows, and the 1-year close series must be nonempty (the source checks
only emptiness there); then all four fields are assigned at once. -/
noncomputable def histIvData (hist3mo hist1y : List ℚ) (atmCallIv : ℝ) :
    Option HistIv :=
  if hist3mo ≠ [] ∧ 30 ≤ hist3mo.length then
    let histVol30d := annualizedVol (pctChange hist3mo)
    if hist1y ≠ [] then
      let rollingVol := (windows30 (pctChange hist1y)).map annualizedVol
      let ivHigh := listMaxR rollingVol
      let ivLow := listMinR rollingVol
      let ivRank :=
        if ivLow < ivHigh then (atmCallIv - ivLow) / (ivHigh - ivLow) * 100
        else 50
      some ⟨histVol30d, ivHigh, ivLow, ivRank⟩
    else none
  else none

/-- pandas pct_change over a date-indexed close series, keeping each
return on the date of its later close. -/
def dailyReturns (hist : List (ℕ × ℚ)) : List (ℕ × ℚ) :=
  (hist.zip hist.tail).map (fun pc => (pc.2.1, (pc.2.2 - pc.1.2) / pc.1.2))

/-- Date alignment by index intersection: the (ticker, market) return
pairs at dates present in both series, in ticker order. -/
def alignReturns (tr mr : List (ℕ × ℚ)) : List (ℚ × ℚ) :=
  tr.filterMap (fun dv => (List.lookup dv.1 mr).map (fun w => (dv.2, w)))

/-- Centered cross sum of the regression of ticker returns (first
components) on market returns (second components). -/
def fitNum (pairs : List (ℚ × ℚ)) : ℚ :=
  (pairs.map (fun p => (p.2 - meanQ (pairs.map Prod.snd))
      * (p.1 - meanQ (pairs.map Prod.fst)))).sum

/-- Centered square sum of the market returns. -/
def fitDen (pairs : List (ℚ × ℚ)) : ℚ :=
  ((pairs.map Prod.snd).map
      (fun x => (x - meanQ (pairs.map Prod.snd)) ^ 2)).sum

/-- Slope of np.polyfit(market, ticker, 1): the first-degree
least-squares slope of ticker returns on market returns, in its
closed normal-equation form. -/
def fitBeta (pairs : List (ℚ × ℚ)) : ℚ :=
  fitNum pairs / fitDen pairs

/-- Intercept of np.polyfit(market, ticker, 1). -/
def fitAlpha (pairs : List (ℚ × ℚ)) : ℚ :=
  meanQ (pairs.map Prod.fst) - fitBeta pairs * meanQ (pairs.map Prod.snd)

/-- residuals = ticker_returns - (alpha + beta * market_returns). -/
def residualsOf (pairs : List (ℚ × ℚ)) : List ℚ :=
  pairs.map (fun p => p.1 - (fitAlpha pairs + fitBeta pairs * p.2))

/-- The result record of calculate_idio_vol. -/
structure IdioVolResult where
  idio_vol : Option ℝ
  total_vol : Option ℝ

/-- calculate_idio_vol from src/yfinance_ux/calculations/volatility.py,
abstracting the provider fetch: both close series must have at least 30
rows (emptiness is subsumed), returns are aligned by date intersection
and at least 30 aligned observations must remain; then total and
idiosyncratic annualized volatilities are returned. -/
noncomputable def calculate_idio_vol (histTicker histMarket : List (ℕ × ℚ)) :
    IdioVolResult :=
  if histTicker.length < 30 ∨ histMarket.length < 30 then ⟨none, none⟩
  else if (alignReturns (dailyReturns histTicker)
      (dailyReturns histMarket)).length < 30 then ⟨none, none⟩
  else
    ⟨some (annualizedVol (residualsOf (alignReturns (dailyReturns histTicker)
        (dailyReturns histMarket)))),
     some (annualizedVol ((alignReturns (dailyReturns histTicker)
        (dailyReturns histMarket)).map Prod.fst))⟩

/-! ## Concurrent batch fetch (src/yfinance_ux/services/markets.py
`get_market_snapshot`) -/

/-- One entry of the snapshot result map: a normal per-ticker record, or
the error-tagged record produced either by get_ticker_data's own handler
or by the collection loop's except branch. -/
inductive FetchOutcome (α : Type) where
  | ok (value : α)
  | err (symbol msg : String)
  deriving DecidableEq

/-- The fetch-and-collect core of get_market_snapshot: one job per
(key, symbol) pair, each job either returning a value or raising; a
raising job is caught and recorded as an error-tagged entry under its
own key, independently of every other job. Completion order only
permutes dict insertions, so the key-to-entry map is modelled in list
order. -/
def get_market_snapshot (α : Type) (fetchList : List (String × String))
    (job : String → Except String α) : List (String × FetchOutcome α) :=
  fetchList.map (fun ks =>
    (ks.1,
      match job ks.2 with
      | Except.ok v => FetchOutcome.ok v
      | Except.error e => FetchOutcome.err ks.1 e))

/-! ## Helper lemmas -/

theorem decide_le_eq_not_lt (p s : ℚ) : decide (p ≤ s) = !decide (s < p) := by
  by_cases h : s < p
  · simp [h, not_le.mpr h]
  · simp [h, le_of_not_lt h]

theorem sum_filter_split {α : Type} (f : α → ℤ) (q : α → Bool) (l : List α) :
    ((l.filter q).map f).sum + ((l.filter (fun x => !q x)).map f).sum
      = (l.map f).sum := by
  induction l with
  | nil => simp
  | cons a t ih =>
      rcases Bool.eq_false_or_eq_true (q a) with h | h
      · simp [List.filter_cons, h]
        omega
      · simp [List.filter_cons, h]
        omega

theorem length_filter_split {α : Type} (q : α → Bool) (l : List α) :
    (l.filter q).length + (l.filter (fun x => !q x)).length = l.length := by
  induction l with
  | nil => rfl
  | cons a t ih =>
      rcases Bool.eq_false_or_eq_true (q a) with h | h
      · simp [List.filter_cons, h]
        omega
      · simp [List.filter_cons, h]
        omega

theorem callsOtm_eq_filter_not (calls : List OptionRow) (price : ℚ) :
    callsOtm calls price
      = calls.filter (fun r => !decide (r.strike < price)) := by
  unfold callsOtm
  exact List.filter_congr (fun r _ => decide_le_eq_not_lt price r.strike)

theorem putsOtm_eq_filter_not (puts : List OptionRow) (price : ℚ) :
    putsOtm puts price
      = puts.filter (fun r => !decide (price < r.strike)) := by
  unfold putsOtm
  exact List.filter_congr (fun r _ => decide_le_eq_not_lt r.strike price)

/-! ## Claim theorems: positioning and partition -/

/-- C2: the ITM/OTM split of get_options_data is a strict partition: a
call is ITM exactly when strike < current_price and OTM exactly when
current_price <= strike; a put is ITM exactly when current_price < strike
and OTM exactly when strike <= current_price; no contract lies in both
buckets, the bucket sizes add up to the table sizes, and the ITM and OTM
open-interest totals add up to the chain totals. -/
theorem itm_otm_partition (calls puts : List OptionRow) (price : ℚ) :
    (∀ r ∈ calls, (r ∈ callsItm calls price ↔ r.strike < price)
      ∧ (r ∈ callsOtm calls price ↔ price ≤ r.strike)
      ∧ ¬(r ∈ callsItm calls price ∧ r ∈ callsOtm calls price))
    ∧ (callsItm calls price).length + (callsOtm calls price).length
        = calls.length
    ∧ oiTotal (callsItm calls price) + oiTotal (callsOtm calls price)
        = oiTotal calls
    ∧ (∀ r ∈ puts, (r ∈ putsItm puts price ↔ price < r.strike)
      ∧ (r ∈ putsOtm puts price ↔ r.strike ≤ price)
      ∧ ¬(r ∈ putsItm puts price ∧ r ∈ putsOtm puts price))
    ∧ (putsItm puts price).length + (putsOtm puts price).length
        = puts.length
    ∧ oiTotal (putsItm puts price) + oiTotal (putsOtm puts price)
        = oiTotal puts := by
  refine ⟨?_, ?_, ?_, ?_, ?_, ?_⟩
  · intro r hr
    refine ⟨?_, ?_, ?_⟩
    · simp [callsItm, List.mem_filter, hr]
    · simp [callsOtm, List.mem_filter, hr]
    · rintro ⟨h1, h2⟩
      rw [callsItm, List.mem_filter] at h1
      rw [callsOtm, List.mem_filter] at h2
      have := of_decide_eq_true h1.2
      have := of_decide_eq_true h2.2
      linarith
  · rw [callsOtm_eq_filter_not]
    exact length_filter_split _ calls
  · rw [callsOtm_eq_filter_not]
    exact sum_filter_split OptionRow.oi _ calls
  · intro r hr
    refine ⟨?_, ?_, ?_⟩
    · simp [putsItm, List.mem_filter, hr]
    · simp [putsOtm, List.mem_filter, hr]
    · rintro ⟨h1, h2⟩
      rw [putsItm, List.mem_filter] at h1
      rw [putsOtm, List.mem_filter] at h2
      have := of_decide_eq_true h1.2
      have := of_decide_eq_true h2.2
      linarith
  · rw [putsOtm_eq_filter_not]
    exact length_filter_split _ puts
  · rw [putsOtm_eq_filter_not]
    exact sum_filter_split OptionRow.oi _ puts

/-- Concrete chain used to witness the ITM/OTM partition claim. -/
def exCallsC2 : List OptionRow := [⟨95, 3, 0, 0⟩, ⟨105, 4, 0, 0⟩]

/-- Concrete put table used to witness the ITM/OTM partition claim. -/
def exPutsC2 : List OptionRow := [⟨90, 7, 0, 0⟩, ⟨100, 2, 0, 0⟩]

theorem itm_otm_partition_witness :
    (⟨95, 3, 0, 0⟩ : OptionRow) ∈ exCallsC2
    ∧ ((⟨95, 3, 0, 0⟩ : OptionRow) ∈ callsItm exCallsC2 100 ↔ (95 : ℚ) < 100)
    ∧ oiTotal (callsItm exCallsC2 100) + oiTotal (callsOtm exCallsC2 100)
        = oiTotal exCallsC2
    ∧ oiTotal (putsItm exPutsC2 100) + oiTotal (putsOtm exPutsC2 100)
        = oiTotal exPutsC2 := by
  refine ⟨by decide, ?_, ?_, ?_⟩
  · exact ((itm_otm_partition exCallsC2 exPutsC2 100).1 ⟨95, 3, 0, 0⟩
      (by decide)).1
  · exact (itm_otm_partition exCallsC2 exPutsC2 100).2.2.1
  · exact (itm_otm_partition exCallsC2 exPutsC2 100).2.2.2.2.2

/-- C3: pc_ratio_oi is put_oi_total / call_oi_total guarded by
call_oi_total > 0 and is 0 when the call total is 0 (division never
happens then); pc_ratio_vol follows the same rule with the call volume
total as the guard. -/
theorem pc_ratio_guard (calls puts : List OptionRow) :
    (oiTotal calls = 0 → pcRatioOi calls puts = 0)
    ∧ (0 < oiTotal calls →
        pcRatioOi calls puts = (oiTotal puts : ℚ) / (oiTotal calls : ℚ))
    ∧ (volTotal calls = 0 → pcRatioVol calls puts = 0)
    ∧ (0 < volTotal calls →
        pcRatioVol calls puts = (volTotal puts : ℚ) / (volTotal calls : ℚ)) := by
  refine ⟨?_, ?_, ?_, ?_⟩
  · intro h
    simp [pcRatioOi, h]
  · intro h
    simp [pcRatioOi, h]
  · intro h
    simp [pcRatioVol, h]
  · intro h
    simp [pcRatioVol, h]

theorem pc_ratio_guard_witness :
    oiTotal ([] : List OptionRow) = 0
    ∧ pcRatioOi [] [⟨100, 5, 0, 0⟩] = 0 := by
  refine ⟨rfl, ?_⟩
  exact (pc_ratio_guard [] [⟨100, 5, 0, 0⟩]).1 rfl

/-! ## Claim theorems: momentum -/

/-- C5: each momentum horizon equals (current - anchor) / anchor * 100;
an absent or zero anchor makes exactly that horizon absent; the horizons
are independent, so a missing 1-year anchor leaves the 1-week and
1-month results unchanged; current price 110 with a 1-month anchor of
100 yields momentum_1m = +10. -/
theorem momentum_horizons (c a : ℚ) (p1w p1m p1y : Option ℚ) (ha : a ≠ 0) :
    momentumOf c (some a) = some ((c - a) / a * 100)
    ∧ momentumOf c none = none
    ∧ momentumOf c (some 0) = none
    ∧ calculate_momentum (some c) p1w p1m none
        = (momentumOf c p1w, momentumOf c p1m, none)
    ∧ calculate_momentum none p1w p1m p1y = (none, none, none)
    ∧ (calculate_momentum (some 110) p1w (some 100) p1y).2.1 = some 10 := by
  refine ⟨?_, rfl, ?_, rfl, rfl, ?_⟩
  · simp [momentumOf, ha]
  · simp [momentumOf]
  · show momentumOf 110 (some 100) = some 10
    rw [momentumOf]
    norm_num

theorem momentum_horizons_witness :
    (100 : ℚ) ≠ 0 ∧ momentumOf 110 (some 100) = some 10 := by
  refine ⟨by norm_num, ?_⟩
  have h := (momentum_horizons 110 100 none none none (by norm_num)).1
  rw [h]
  norm_num

/-! ## Claim theorems: symbol normalization -/

/-- C9 evaluation at the failing input: normalize_ticker_symbol turns
RIO.L into RIO-L because it lacks the single-letter exchange allow-list,
contradicting its own docstring (RIO.L -> RIO.L, London) and the claim;
the sibling normalize_symbol implements the allow-list and keeps the
period. -/
theorem normalize_rio_l_eval :
    normalize_ticker_symbol ("RIO.L") = ("RIO-L")
    ∧ normalize_symbol ("RIO.L") = some ("RIO.L")
    ∧ normalize_ticker_symbol ("NEO.TO") = ("NEO.TO")
    ∧ normalize_ticker_symbol ("BRK/B") = ("BRK-B")
    ∧ normalize_ticker_symbol ("BRK.B") = ("BRK-B") := by
  refine ⟨?_, ?_, ?_, ?_, ?_⟩ <;> rfl

/-! ## Claim theorems: concurrent batch fetch -/

theorem snapshot_lookup (α : Type) (job : String → Except String α) :
    ∀ (l : List (String × String)), (l.map Prod.fst).Nodup →
    ∀ k s, (k, s) ∈ l →
    List.lookup k (get_market_snapshot α l job)
      = some (match job s with
              | Except.ok v => FetchOutcome.ok v
              | Except.error e => FetchOutcome.err k e) := by
  intro l
  induction l with
  | nil =>
      intro _ k s h
      cases h
  | cons a t ih =>
      intro hnd k s hmem
      rw [List.map_cons] at hnd
      rcases List.mem_cons.mp hmem with h | h
      · subst h
        simp [get_market_snapshot, List.lookup]
      · have hk : (k == a.1) = false := by
          apply beq_eq_false_iff_ne.mpr
          intro hkeq
          exact (List.nodup_cons.mp hnd).1
            (hkeq ▸ List.mem_map.mpr ⟨(k, s), h, rfl⟩)
        have hstep : List.lookup k (get_market_snapshot α (a :: t) job)
            = List.lookup k (get_market_snapshot α t job) := by
          simp [get_market_snapshot, List.lookup, hk]
        rw [hstep]
        exact ih (List.nodup_cons.mp hnd).2 k s h

/-- C6: the batch fetch of get_market_snapshot returns exactly one entry
per requested key (the key list of the result equals the requested key
list) and never raises; a job that raises yields an error-tagged entry
for its own key only, and every key whose job succeeds maps to its
normal result, independently of the other jobs. -/
theorem snapshot_isolation (α : Type) (fetchList : List (String × String))
    (job : String → Except String α)
    (hnd : (fetchList.map Prod.fst).Nodup) :
    (get_market_snapshot α fetchList job).map Prod.fst
        = fetchList.map Prod.fst
    ∧ (get_market_snapshot α fetchList job).length = fetchList.length
    ∧ (∀ k s, (k, s) ∈ fetchList → ∀ e, job s = Except.error e →
        List.lookup k (get_market_snapshot α fetchList job)
          = some (FetchOutcome.err k e))
    ∧ (∀ k s, (k, s) ∈ fetchList → ∀ v, job s = Except.ok v →
        List.lookup k (get_market_snapshot α fetchList job)
          = some (FetchOutcome.ok v)) := by
  refine ⟨?_, ?_, ?_, ?_⟩
  · simp [get_market_snapshot]
  · simp [get_market_snapshot]
  · intro k s hmem e he
    have h := snapshot_lookup α job fetchList hnd k s hmem
    rw [he] at h
    exact h
  · intro k s hmem v hv
    have h := snapshot_lookup α job fetchList hnd k s hmem
    rw [hv] at h
    exact h

/-- Concrete failing job used to witness the batch-fetch claim: the
provider call for symbol FEZ always raises. -/
def exJobC6 : String → Except String ℤ :=
  fun s => if s = ("FEZ") then Except.error ("boom") else Except.ok 1

/-- Concrete two-key fetch list used to witness the batch-fetch claim. -/
def exFetchList : List (String × String) :=
  [("us", "SPY"), ("eu", "FEZ")]

theorem snapshot_isolation_witness :
    (exFetchList.map Prod.fst).Nodup
    ∧ (get_market_snapshot ℤ exFetchList exJobC6).length = exFetchList.length
    ∧ List.lookup ("eu") (get_market_snapshot ℤ exFetchList exJobC6)
        = some (FetchOutcome.err ("eu") ("boom"))
    ∧ List.lookup ("us") (get_market_snapshot ℤ exFetchList exJobC6)
        = some (FetchOutcome.ok 1) := by
  have h := snapshot_isolation ℤ exFetchList exJobC6 (by decide)
  refine ⟨by decide, h.2.1, ?_, ?_⟩
  · exact h.2.2.1 ("eu") ("FEZ") (by decide) ("boom") rfl
  · exact h.2.2.2 ("us") ("SPY") (by decide) 1 rfl

/-! ## Claim theorems: term structure -/

/-- Near expiration used in the term-structure counterexample. -/
def expNearEx : ExpChain := ⟨30, [⟨100, 10, 0, 3/10⟩]⟩

/-- Middle expiration used in the term-structure witness. -/
def expMidEx : ExpChain := ⟨45, [⟨100, 10, 0, 7/25⟩]⟩

/-- Far expiration used in the term-structure counterexample. -/
def expFarEx : ExpChain := ⟨60, [⟨100, 10, 0, 1/4⟩]⟩

/-- C7 counterexample: with exactly two listed expirations the code
builds no term-structure points at all (the source requires at least
three) and returns contango 0, although the near and far ATM IVs differ
by 5 points, so the claimed near-minus-far contango would be 5. -/
theorem term_structure_two_exp_counterexample :
    ([expNearEx, expFarEx] : List ExpChain).length = 2
    ∧ termStructure [expNearEx, expFarEx] 100 = []
    ∧ contango [expNearEx, expFarEx] 100 = 0
    ∧ atmIvOf expNearEx 100 - atmIvOf expFarEx 100 = 5 := by
  refine ⟨rfl, ?_, ?_, ?_⟩
  · simp [termStructure]
  · simp [contango, termStructure]
  · norm_num [atmIvOf, atmStrike, strikesOf, expNearEx, expFarEx, selMin]

/-- C7 amended: get_options_data builds the term structure only when at
least three expirations are listed, and then for exactly the first
three; contango is near IV minus far IV when the term structure has at
least two points (which the code makes three) and 0 otherwise, in
particular 0 whenever fewer than three expirations are listed. -/
theorem term_structure_amended (exps : List ExpChain) (price : ℚ) :
    (exps.length < 3 → termStructure exps price = [] ∧ contango exps price = 0)
    ∧ (∀ a b c rest, exps = a :: b :: c :: rest →
        termStructure exps price
          = [(a.dte, atmIvOf a price), (b.dte, atmIvOf b price),
             (c.dte, atmIvOf c price)]
        ∧ contango exps price = atmIvOf a price - atmIvOf c price) := by
  constructor
  · intro h
    have hts : termStructure exps price = [] := by
      rw [termStructure, if_neg (by omega)]
    refine ⟨hts, ?_⟩
    simp [contango, hts]
  · intro a b c rest h
    subst h
    have hts : termStructure (a :: b :: c :: rest) price
        = [(a.dte, atmIvOf a price), (b.dte, atmIvOf b price),
           (c.dte, atmIvOf c price)] := by
      rw [termStructure, if_pos]
      · rfl
      · simp
    refine ⟨hts, ?_⟩
    simp [contango, hts]

theorem term_structure_amended_witness :
    ([expNearEx] : List ExpChain).length < 3
    ∧ termStructure [expNearEx] 100 = []
    ∧ ([expNearEx, expMidEx, expFarEx] : List ExpChain)
        = expNearEx :: expMidEx :: expFarEx :: []
    ∧ contango [expNearEx, expMidEx, expFarEx] 100
        = atmIvOf expNearEx 100 - atmIvOf expFarEx 100 := by
  refine ⟨by decide, ?_, rfl, ?_⟩
  · exact ((term_structure_amended [expNearEx] 100).1 (by decide)).1
  · exact ((term_structure_amended [expNearEx, expMidEx, expFarEx] 100).2
      expNearEx expMidEx expFarEx [] rfl).2

/-! ## Claim theorems: historical IV context -/

/-- Concrete 31-day 3-month close history. -/
def hist3moEx : List ℚ := List.map (fun i => ((100 + i : ℕ) : ℚ)) (List.range 31)

/-- Concrete 40-day 1-year close history, far shorter than 252 trading
days. -/
def hist1yEx : List ℚ := List.map (fun i => ((100 + i : ℕ) : ℚ)) (List.range 40)

/-- C8 counterexample: with 31 days of 3-month history and only 40 days
of 1-year history (fewer than 252 trading days) the historical IV block
is still produced, because the source checks only that the 1-year
history is nonempty. -/
theorem hist_iv_counterexample :
    hist1yEx.length = 40 ∧ hist1yEx.length < 252
    ∧ (histIvData hist3moEx hist1yEx 20).isSome = true := by
  have hl3 : hist3moEx.length = 31 := by
    rw [hist3moEx, List.length_map, List.length_range]
  have hl1 : hist1yEx.length = 40 := by
    rw [hist1yEx, List.length_map, List.length_range]
  have h1y : hist1yEx ≠ [] := List.length_pos.mp (by omega)
  have h30 : 30 ≤ hist3moEx.length := by omega
  have hne : hist3moEx ≠ [] := List.length_pos.mp (by omega)
  refine ⟨hl1, by omega, ?_⟩
  simp [histIvData, h1y, h30, hne]

/-- C8 amended: the historical IV block is present exactly when the
3-month history has at least 30 rows and the 1-year history is nonempty
(the source does not require 252 days for the 52-week part); the block
is a single optional record, so when present all four fields are
populated together and when absent the whole block is missing. -/
theorem hist_iv_presence (hist3mo hist1y : List ℚ) (iv : ℝ) :
    (histIvData hist3mo hist1y iv).isSome = true
      ↔ (30 ≤ hist3mo.length ∧ hist1y ≠ []) := by
  by_cases h1 : hist3mo ≠ [] ∧ 30 ≤ hist3mo.length
  · by_cases h2 : hist1y ≠ []
    · simp [histIvData, h1.1, h1.2, h2]
    · simp [histIvData, h1.1, h1.2, h2]
  · have h30 : ¬ 30 ≤ hist3mo.length := fun hle =>
      h1 ⟨List.length_pos.mp (by omega), hle⟩
    simp [histIvData, h1, h30]

/-! ## Strict-improvement fold lemmas -/

theorem foldl_selMin_mem (f : ℚ → ℚ) : ∀ (l : List ℚ) (b : ℚ),
    l.foldl (selMin f) b ∈ b :: l := by
  intro l
  induction l with
  | nil => intro b; simp
  | cons k rest ih =>
      intro b
      rw [List.foldl_cons]
      rcases List.mem_cons.mp (ih (selMin f b k)) with h | h
      · rw [h]
        unfold selMin
        split_ifs
        · simp
        · simp
      · exact List.mem_cons_of_mem _ (List.mem_cons_of_mem _ h)

theorem foldl_selMin_min (f : ℚ → ℚ) : ∀ (l : List ℚ) (b : ℚ),
    ∀ c ∈ b :: l, f (l.foldl (selMin f) b) ≤ f c := by
  intro l
  induction l with
  | nil =>
      intro b c hc
      have : c = b := by simpa using hc
      rw [this]
      exact le_refl _
  | cons k rest ih =>
      intro b c hc
      rw [List.foldl_cons]
      have hsel : f (selMin f b k) ≤ f b ∧ f (selMin f b k) ≤ f k := by
        unfold selMin
        split_ifs with h
        · exact ⟨le_of_lt h, le_refl _⟩
        · exact ⟨le_refl _, le_of_not_lt h⟩
      have hhead : f (List.foldl (selMin f) (selMin f b k) rest) ≤ f (selMin f b k) :=
        ih (selMin f b k) _ (List.mem_cons_self _ _)
      rcases List.mem_cons.mp hc with h | h
      · rw [h]
        linarith [hsel.1]
      · rcases List.mem_cons.mp h with h2 | h2
        · rw [h2]
          linarith [hsel.2]
        · exact ih (selMin f b k) c (List.mem_cons_of_mem _ h2)

theorem foldl_selMin_stick (f : ℚ → ℚ) : ∀ (l : List ℚ) (b : ℚ),
    (∀ c ∈ l, f b ≤ f c) → l.foldl (selMin f) b = b := by
  intro l
  induction l with
  | nil => intro b _; rfl
  | cons k rest ih =>
      intro b h
      rw [List.foldl_cons]
      have hbk : selMin f b k = b := by
        unfold selMin
        rw [if_neg (not_lt.mpr (h k (List.mem_cons_self _ _)))]
      rw [hbk]
      exact ih b (fun c hc => h c (List.mem_cons_of_mem _ hc))

theorem foldl_selMin_first (f : ℚ → ℚ) : ∀ (l : List ℚ) (b : ℚ),
    List.Pairwise (· ≤ ·) (b :: l) →
    ∀ c ∈ b :: l, f c ≤ f (l.foldl (selMin f) b) → l.foldl (selMin f) b ≤ c := by
  intro l
  induction l with
  | nil =>
      intro b _ c hc _
      have : c = b := by simpa using hc
      rw [this]
      exact le_refl _
  | cons k rest ih =>
      intro b hsorted c hc hcle
      rw [List.foldl_cons] at hcle ⊢
      by_cases hbk : f k < f b
      · have hk : selMin f b k = k := by
          unfold selMin
          rw [if_pos hbk]
        rw [hk] at hcle ⊢
        have hsorted2 : List.Pairwise (· ≤ ·) (k :: rest) :=
          List.Pairwise.of_cons hsorted
        rcases List.mem_cons.mp hc with h | h
        · exfalso
          have hrk : f (rest.foldl (selMin f) k) ≤ f k :=
            foldl_selMin_min f rest k k (List.mem_cons_self _ _)
          rw [h] at hcle
          linarith
        · exact ih k hsorted2 c h hcle
      · have hb : selMin f b k = b := by
          unfold selMin
          rw [if_neg hbk]
        rw [hb] at hcle ⊢
        have hble : ∀ x ∈ k :: rest, b ≤ x := (List.pairwise_cons.mp hsorted).1
        have hsorted3 : List.Pairwise (· ≤ ·) (b :: rest) := by
          rw [List.pairwise_cons]
          refine ⟨fun x hx => hble x (List.mem_cons_of_mem _ hx), ?_⟩
          exact (List.pairwise_cons.mp (List.Pairwise.of_cons hsorted)).2
        rcases List.mem_cons.mp hc with h | h
        · rw [h]
          exact ih b hsorted3 b (List.mem_cons_self _ _) (h ▸ hcle)
        · rcases List.mem_cons.mp h with h2 | h2
          · have hrb : f (rest.foldl (selMin f) b) ≤ f b :=
              foldl_selMin_min f rest b b (List.mem_cons_self _ _)
            have hfb : ∀ x ∈ rest, f b ≤ f x := by
              intro x hx
              have hrx : f (rest.foldl (selMin f) b) ≤ f x :=
                foldl_selMin_min f rest b x (List.mem_cons_of_mem _ hx)
              have hbk2 : f b ≤ f k := le_of_not_lt hbk
              rw [h2] at hcle
              linarith
            rw [foldl_selMin_stick f rest b hfb, h2]
            exact hble k (List.mem_cons_self _ _)
          · exact ih b hsorted3 c (List.mem_cons_of_mem _ h2) hcle

theorem maxPainGo_some_eq (f : ℚ → ℚ) : ∀ (l : List ℚ) (b : ℚ),
    maxPainGo f l b (some (f b)) = l.foldl (selMin f) b := by
  intro l
  induction l with
  | nil => intro b; rfl
  | cons k rest ih =>
      intro b
      by_cases h : f k < f b
      · have e1 : maxPainGo f (k :: rest) b (some (f b))
            = maxPainGo f rest k (some (f k)) := by
          simp [maxPainGo, h]
        have e2 : selMin f b k = k := by
          simp [selMin, h]
        rw [List.foldl_cons, e1, e2, ih k]
      · have e1 : maxPainGo f (k :: rest) b (some (f b))
            = maxPainGo f rest b (some (f b)) := by
          simp [maxPainGo, h]
        have e2 : selMin f b k = b := by
          simp [selMin, h]
        rw [List.foldl_cons, e1, e2, ih b]

theorem max_pain_eq_foldl (calls puts : List OptionRow) (k : ℚ) (rest : List ℚ)
    (h : candidateStrikes calls puts = k :: rest) :
    max_pain_strike calls puts
      = rest.foldl (selMin (painAt calls puts)) k := by
  rw [max_pain_strike, h]
  have e1 : maxPainGo (painAt calls puts) (k :: rest) 0 none
      = maxPainGo (painAt calls puts) rest k (some (painAt calls puts k)) := by
    simp [maxPainGo]
  rw [e1, maxPainGo_some_eq]

/-! ## Sorted candidate strike lemmas -/

theorem mem_insertStrike (x y : ℚ) : ∀ (l : List ℚ),
    (y ∈ insertStrike x l ↔ y = x ∨ y ∈ l) := by
  intro l
  induction l with
  | nil => simp [insertStrike]
  | cons z zs ih =>
      unfold insertStrike
      split_ifs with h1 h2
      · simp [List.mem_cons]
      · rw [h2]
        simp [List.mem_cons]
      · simp [List.mem_cons, ih]
        tauto

theorem sorted_insertStrike (x : ℚ) : ∀ (l : List ℚ),
    List.Pairwise (· < ·) l → List.Pairwise (· < ·) (insertStrike x l) := by
  intro l
  induction l with
  | nil =>
      intro _
      simp [insertStrike]
  | cons z zs ih =>
      intro hs
      unfold insertStrike
      split_ifs with h1 h2
      · rw [List.pairwise_cons]
        refine ⟨?_, hs⟩
        intro w hw
        rcases List.mem_cons.mp hw with h | h
        · rw [h]
          exact h1
        · have : z < w := (List.pairwise_cons.mp hs).1 w h
          linarith
      · exact hs
      · rw [List.pairwise_cons]
        rcases List.pairwise_cons.mp hs with ⟨hz, hzs⟩
        refine ⟨?_, ih hzs⟩
        intro w hw
        rcases (mem_insertStrike x w zs).mp hw with h | h
        · rw [h]
          exact lt_of_le_of_ne (le_of_not_lt h1) (Ne.symm h2)
        · exact hz w h

theorem sorted_sortedStrikes (l : List ℚ) :
    List.Pairwise (· < ·) (sortedStrikes l) := by
  induction l with
  | nil => simp [sortedStrikes]
  | cons a t ih =>
      show List.Pairwise (· < ·) (insertStrike a (sortedStrikes t))
      exact sorted_insertStrike a _ ih

theorem mem_sortedStrikes (l : List ℚ) (y : ℚ) :
    y ∈ sortedStrikes l ↔ y ∈ l := by
  induction l with
  | nil => simp [sortedStrikes]
  | cons a t ih =>
      show y ∈ insertStrike a (sortedStrikes t) ↔ _
      rw [mem_insertStrike]
      simp [List.mem_cons, ih]

theorem candidateStrikes_ne_nil (calls puts : List OptionRow) (hc : calls ≠ []) :
    candidateStrikes calls puts ≠ [] := by
  obtain ⟨r, t, rfl⟩ := List.exists_cons_of_ne_nil hc
  have hmem : r.strike ∈ candidateStrikes (r :: t) puts := by
    rw [candidateStrikes, mem_sortedStrikes]
    apply List.mem_append_left
    rw [strikesOf, List.map_cons]
    exact List.mem_cons_self _ _
  exact List.ne_nil_of_mem hmem

theorem painAt_eq_painSpec (calls puts : List OptionRow) (k : ℚ) :
    painAt calls puts k = painSpec calls puts k := by
  rw [painAt, painSpec]
  congr 1
  · apply congrArg List.sum
    apply List.map_congr_left
    intro c hc
    have hlt : c.strike < k := of_decide_eq_true (List.mem_filter.mp hc).2
    rw [max_eq_right (by linarith)]
  · apply congrArg List.sum
    apply List.map_congr_left
    intro p hp
    have hlt : k < p.strike := of_decide_eq_true (List.mem_filter.mp hp).2
    rw [max_eq_right (by linarith)]

/-! ## Claim theorems: max pain -/

/-- C1: for non-empty call and put tables the max-pain strike is drawn
from the sorted, duplicate-free union of the listed call and put
strikes, minimizes the total pain formula (sum over calls below the
candidate of (candidate - call_strike) * call_OI plus sum over puts
above the candidate of (put_strike - candidate) * put_OI), and among
tied minimizers it is the first in ascending strike order (it is at most
every other candidate with equal pain). -/
theorem max_pain_spec (calls puts : List OptionRow)
    (hc : calls ≠ []) (hp : puts ≠ []) :
    max_pain_strike calls puts ∈ candidateStrikes calls puts
    ∧ (∀ s : ℚ, s ∈ candidateStrikes calls puts ↔
        s ∈ strikesOf calls ++ strikesOf puts)
    ∧ List.Pairwise (· < ·) (candidateStrikes calls puts)
    ∧ (∀ k ∈ candidateStrikes calls puts,
        painSpec calls puts (max_pain_strike calls puts) ≤ painSpec calls puts k)
    ∧ (∀ k ∈ candidateStrikes calls puts,
        painSpec calls puts k = painSpec calls puts (max_pain_strike calls puts) →
        max_pain_strike calls puts ≤ k) := by
  obtain ⟨k0, rest, hcand⟩ :=
    List.exists_cons_of_ne_nil (candidateStrikes_ne_nil calls puts hc)
  have hfold := max_pain_eq_foldl calls puts k0 rest hcand
  have hpain : painAt calls puts = painSpec calls puts :=
    funext (painAt_eq_painSpec calls puts)
  have hsortedlt : List.Pairwise (· < ·) (k0 :: rest) := by
    have h1 := sorted_sortedStrikes (strikesOf calls ++ strikesOf puts)
    rw [show sortedStrikes (strikesOf calls ++ strikesOf puts)
        = candidateStrikes calls puts from rfl, hcand] at h1
    exact h1
  refine ⟨?_, ?_, ?_, ?_, ?_⟩
  · rw [hfold, hcand]
    exact foldl_selMin_mem _ rest k0
  · intro s
    exact mem_sortedStrikes (strikesOf calls ++ strikesOf puts) s
  · rw [hcand]
    exact hsortedlt
  · intro k hk
    rw [hcand] at hk
    rw [hfold, ← hpain]
    exact foldl_selMin_min (painAt calls puts) rest k0 k hk
  · intro k hk heq
    rw [hcand] at hk
    rw [hfold]
    have hle := le_of_eq heq
    rw [hfold, ← hpain] at hle
    exact foldl_selMin_first (painAt calls puts) rest k0
      (hsortedlt.imp (fun hab => le_of_lt hab)) k hk hle

/-- Call table with a dominant 100 strike, for the max-pain witness. -/
def exCallsC1 : List OptionRow := [⟨90, 1, 0, 0⟩, ⟨100, 1000, 0, 0⟩]

/-- Put table with a dominant 100 strike, for the max-pain witness. -/
def exPutsC1 : List OptionRow := [⟨100, 1000, 0, 0⟩, ⟨110, 1, 0, 0⟩]

theorem max_pain_spec_witness :
    exCallsC1 ≠ [] ∧ exPutsC1 ≠ []
    ∧ max_pain_strike exCallsC1 exPutsC1 = 100
    ∧ max_pain_strike exCallsC1 exPutsC1 ∈ candidateStrikes exCallsC1 exPutsC1 := by
  refine ⟨by decide, by decide, ?_, ?_⟩
  · norm_num [max_pain_strike, maxPainGo, candidateStrikes, sortedStrikes,
      insertStrike, strikesOf, painAt, exCallsC1, exPutsC1]
  · exact (max_pain_spec exCallsC1 exPutsC1 (by decide) (by decide)).1

/-! ## Claim theorems: ATM strike selection -/

/-- C10: the ATM strike is selected from the call strikes only: it is a
call strike minimizing the distance to the current price, any value that
is not a call strike (in particular a put-only strike strictly closer to
the price) is never selected, and the put-side ATM IV is looked up at
this call-derived strike, any returned IV coming from a put row whose
strike equals it. -/
theorem atm_strike_spec (calls puts : List OptionRow) (price : ℚ)
    (hc : calls ≠ []) :
    atmStrike calls price ∈ strikesOf calls
    ∧ (∀ s ∈ strikesOf calls,
        |atmStrike calls price - price| ≤ |s - price|)
    ∧ (∀ q : ℚ, q ∉ strikesOf calls → atmStrike calls price ≠ q)
    ∧ (∀ iv : ℚ, atmPutIv puts (atmStrike calls price) = some iv →
        ∃ r ∈ puts, r.strike = atmStrike calls price ∧ r.iv = iv) := by
  obtain ⟨r0, t, rfl⟩ := List.exists_cons_of_ne_nil hc
  have hstr : strikesOf (r0 :: t) = r0.strike :: strikesOf t := rfl
  have hatm : atmStrike (r0 :: t) price
      = (strikesOf t).foldl (selMin (fun s => |s - price|)) r0.strike := rfl
  have hmem : atmStrike (r0 :: t) price ∈ strikesOf (r0 :: t) := by
    rw [hatm, hstr]
    exact foldl_selMin_mem _ _ _
  refine ⟨hmem, ?_, ?_, ?_⟩
  · intro s hs
    rw [hatm]
    exact foldl_selMin_min (fun u => |u - price|) (strikesOf t) r0.strike s
      (hstr ▸ hs)
  · intro q hq hEq
    exact hq (hEq ▸ hmem)
  · intro iv hiv
    rw [atmPutIv] at hiv
    rcases hfilter : puts.filter
        (fun r => decide (r.strike = atmStrike (r0 :: t) price)) with _ | ⟨rr, rs⟩
    · rw [hfilter] at hiv
      simp at hiv
    · rw [hfilter] at hiv
      simp at hiv
      have hmemf : rr ∈ puts.filter
          (fun r => decide (r.strike = atmStrike (r0 :: t) price)) := by
        rw [hfilter]
        exact List.mem_cons_self _ _
      have h2 := List.mem_filter.mp hmemf
      exact ⟨rr, h2.1, of_decide_eq_true h2.2, hiv⟩

/-- Call table for the ATM witness: strikes 100 and 105. -/
def exCallsC10 : List OptionRow := [⟨100, 0, 0, 0⟩, ⟨105, 0, 0, 0⟩]

/-- Put table for the ATM witness: a put-only strike 101, strictly
closer to the price 102 than any call strike. -/
def exPutsC10 : List OptionRow := [⟨101, 0, 0, 1/2⟩]

theorem atm_strike_spec_witness :
    exCallsC10 ≠ []
    ∧ atmStrike exCallsC10 102 = 100
    ∧ (101 : ℚ) ∈ strikesOf exPutsC10
    ∧ (101 : ℚ) ∉ strikesOf exCallsC10
    ∧ |(101 : ℚ) - 102| < |(100 : ℚ) - 102|
    ∧ atmStrike exCallsC10 102 ≠ 101 := by
  refine ⟨by decide, ?_, ?_, ?_, ?_, ?_⟩
  · norm_num [atmStrike, strikesOf, exCallsC10, selMin]
  · simp [strikesOf, exPutsC10]
  · norm_num [strikesOf, exCallsC10]
  · rw [show ((101 : ℚ) - 102) = -1 by norm_num,
      show ((100 : ℚ) - 102) = -2 by norm_num]
    rw [abs_neg, abs_neg]
    norm_num
  · exact (atm_strike_spec exCallsC10 exPutsC10 102 (by decide)).2.2.1 101
      (by norm_num [strikesOf, exCallsC10])

/-! ## Alignment length lemmas -/

theorem dailyReturns_length (h : List (ℕ × ℚ)) :
    (dailyReturns h).length = h.length - 1 := by
  rw [dailyReturns, List.length_map, List.length_zip, List.length_tail]
  omega

theorem lookup_mem_keys : ∀ (mr : List (ℕ × ℚ)) (d : ℕ) (w : ℚ),
    List.lookup d mr = some w → d ∈ mr.map Prod.fst := by
  intro mr
  induction mr with
  | nil =>
      intro d w h
      cases h
  | cons a t ih =>
      intro d w h
      by_cases hd : d = a.1
      · rw [hd, List.map_cons]
        exact List.mem_cons_self _ _
      · have hbeq : (d == a.1) = false := beq_eq_false_iff_ne.mpr hd
        have hrec : List.lookup d t = some w := by
          obtain ⟨k, v⟩ := a
          rw [List.lookup] at h
          simp only at hbeq
          rw [hbeq] at h
          exact h
        exact List.mem_cons_of_mem _ (ih d w hrec)

theorem alignReturns_length (tr mr : List (ℕ × ℚ)) :
    (alignReturns tr mr).length
      = (tr.filter (fun dv => (List.lookup dv.1 mr).isSome)).length := by
  induction tr with
  | nil => rfl
  | cons a t ih =>
      cases hl : List.lookup a.1 mr with
      | none =>
          simp [alignReturns, List.filterMap_cons, List.filter_cons, hl] at ih ⊢
          exact ih
      | some w =>
          simp [alignReturns, List.filterMap_cons, List.filter_cons, hl] at ih ⊢
          exact ih

theorem alignReturns_length_le_right (tr mr : List (ℕ × ℚ))
    (hnd : (tr.map Prod.fst).Nodup) :
    (alignReturns tr mr).length ≤ mr.length := by
  rw [alignReturns_length]
  have hsub : ((tr.filter (fun dv => (List.lookup dv.1 mr).isSome)).map Prod.fst)
      ⊆ (mr.map Prod.fst) := by
    intro d hd
    rcases List.mem_map.mp hd with ⟨dv, hdv, rfl⟩
    have hks := (List.mem_filter.mp hdv).2
    rcases Option.isSome_iff_exists.mp hks with ⟨w, hw⟩
    exact lookup_mem_keys mr dv.1 w hw
  have hndk : ((tr.filter (fun dv => (List.lookup dv.1 mr).isSome)).map
      Prod.fst).Nodup :=
    List.Nodup.sublist (List.Sublist.map Prod.fst (List.filter_sublist tr)) hnd
  have hle := (List.subperm_of_subset hndk hsub).length_le
  calc (tr.filter (fun dv => (List.lookup dv.1 mr).isSome)).length
      = ((tr.filter (fun dv => (List.lookup dv.1 mr).isSome)).map
          Prod.fst).length := (List.length_map _ _).symm
    _ ≤ (mr.map Prod.fst).length := hle
    _ = mr.length := List.length_map _ _

theorem dailyReturns_keys (h : List (ℕ × ℚ)) :
    (dailyReturns h).map Prod.fst = h.tail.map Prod.fst := by
  rw [dailyReturns, List.map_map]
  rw [show (Prod.fst ∘ fun pc : (ℕ × ℚ) × (ℕ × ℚ) =>
      (pc.2.1, (pc.2.2 - pc.1.2) / pc.1.2)) = (Prod.fst ∘ Prod.snd) from rfl]
  rw [← List.map_map]
  rw [List.map_snd_zip]
  rw [List.length_tail]
  omega

theorem dailyReturns_keys_nodup (h : List (ℕ × ℚ))
    (hnd : (h.map Prod.fst).Nodup) : ((dailyReturns h).map Prod.fst).Nodup := by
  rw [dailyReturns_keys, List.map_tail]
  rcases hl : h.map Prod.fst with _ | ⟨a, t2⟩
  · simp
  · rw [hl] at hnd
    simp only [List.tail_cons]
    exact (List.nodup_cons.mp hnd).2

/-! ## Regression algebra -/

theorem sum_map_addQ {α : Type} (f g : α → ℚ) (l : List α) :
    (l.map (fun x => f x + g x)).sum = (l.map f).sum + (l.map g).sum := by
  induction l with
  | nil => simp
  | cons a t ih =>
      simp [ih]
      ring

theorem sum_map_affine (pairs : List (ℚ × ℚ)) (u v : ℚ) :
    (pairs.map (fun p => p.1 - (u + v * p.2))).sum
      = (pairs.map Prod.fst).sum - (pairs.length : ℚ) * u
        - v * (pairs.map Prod.snd).sum := by
  induction pairs with
  | nil => simp
  | cons a t ih =>
      simp [ih]
      ring

theorem sum_map_affine_x (pairs : List (ℚ × ℚ)) (u v : ℚ) :
    (pairs.map (fun p => (p.1 - (u + v * p.2)) * p.2)).sum
      = (pairs.map (fun p => p.2 * p.1)).sum
        - u * (pairs.map Prod.snd).sum
        - v * (pairs.map (fun p => p.2 ^ 2)).sum := by
  induction pairs with
  | nil => simp
  | cons a t ih =>
      simp [ih]
      ring

theorem sum_centered_prod (pairs : List (ℚ × ℚ)) (c d : ℚ) :
    (pairs.map (fun p => (p.2 - c) * (p.1 - d))).sum
      = (pairs.map (fun p => p.2 * p.1)).sum
        - c * (pairs.map Prod.fst).sum
        - d * (pairs.map Prod.snd).sum
        + (pairs.length : ℚ) * (c * d) := by
  induction pairs with
  | nil => simp
  | cons a t ih =>
      simp [ih]
      ring

theorem sum_centered_sq (xs : List ℚ) (c : ℚ) :
    (xs.map (fun x => (x - c) ^ 2)).sum
      = (xs.map (fun x => x ^ 2)).sum - 2 * c * xs.sum
        + (xs.length : ℚ) * c ^ 2 := by
  induction xs with
  | nil => simp
  | cons a t ih =>
      simp [ih]
      ring

theorem fitNum_eq (pairs : List (ℚ × ℚ)) (hn : (pairs.length : ℚ) ≠ 0) :
    fitNum pairs
      = (pairs.map (fun p => p.2 * p.1)).sum
        - (pairs.map Prod.snd).sum * (pairs.map Prod.fst).sum
            / (pairs.length : ℚ) := by
  rw [fitNum, sum_centered_prod, meanQ, meanQ, List.length_map, List.length_map]
  field_simp
  ring

theorem fitDen_eq (pairs : List (ℚ × ℚ)) (hn : (pairs.length : ℚ) ≠ 0) :
    fitDen pairs
      = (pairs.map (fun p => p.2 ^ 2)).sum
        - (pairs.map Prod.snd).sum ^ 2 / (pairs.length : ℚ) := by
  have hx2 : ((pairs.map Prod.snd).map (fun x => x ^ 2)).sum
      = (pairs.map (fun p => p.2 ^ 2)).sum := by
    rw [List.map_map]
    rfl
  rw [fitDen, sum_centered_sq, meanQ, List.length_map, hx2]
  field_simp
  ring

theorem residuals_sum_eq_zero (pairs : List (ℚ × ℚ)) (hn : pairs ≠ []) :
    (residualsOf pairs).sum = 0 := by
  have hn0 : (pairs.length : ℚ) ≠ 0 :=
    Nat.cast_ne_zero.mpr (by
      have := List.length_pos.mpr hn
      omega)
  rw [residualsOf, sum_map_affine, fitAlpha, meanQ, meanQ,
    List.length_map, List.length_map]
  field_simp

theorem residuals_dot_x_eq_zero (pairs : List (ℚ × ℚ)) (hn : pairs ≠ [])
    (hden : fitDen pairs ≠ 0) :
    (pairs.map (fun p =>
      (p.1 - (fitAlpha pairs + fitBeta pairs * p.2)) * p.2)).sum = 0 := by
  have hn0 : (pairs.length : ℚ) ≠ 0 :=
    Nat.cast_ne_zero.mpr (by
      have := List.length_pos.mpr hn
      omega)
  have hNum := fitNum_eq pairs hn0
  have hDen := fitDen_eq pairs hn0
  rw [hDen] at hden
  rw [sum_map_affine_x, fitAlpha, fitBeta, meanQ, meanQ, List.length_map,
    List.length_map, hNum, hDen]
  have hden2 : (pairs.map (fun p => p.2 ^ 2)).sum * (pairs.length : ℚ)
      - (pairs.map Prod.snd).sum ^ 2 ≠ 0 := by
    intro h0
    apply hden
    have hexp : (pairs.map (fun p => p.2 ^ 2)).sum
        - (pairs.map Prod.snd).sum ^ 2 / (pairs.length : ℚ)
        = ((pairs.map (fun p => p.2 ^ 2)).sum * (pairs.length : ℚ)
            - (pairs.map Prod.snd).sum ^ 2) / (pairs.length : ℚ) := by
      field_simp
    rw [hexp, h0, zero_div]
  field_simp [hden2]
  ring

theorem least_squares_optimal (pairs : List (ℚ × ℚ)) (hn : pairs ≠ [])
    (hden : fitDen pairs ≠ 0) (a b : ℚ) :
    ((residualsOf pairs).map (fun e => e ^ 2)).sum
      ≤ (pairs.map (fun p => (p.1 - (a + b * p.2)) ^ 2)).sum := by
  have hsum : (pairs.map (fun p => (p.1 - (a + b * p.2)) ^ 2)).sum
      = (pairs.map (fun p =>
            (p.1 - (fitAlpha pairs + fitBeta pairs * p.2)) ^ 2)).sum
        + (pairs.map (fun p =>
            ((fitAlpha pairs - a) + (fitBeta pairs - b) * p.2) ^ 2)).sum
        + ((2 * (fitAlpha pairs - a))
            * (pairs.map (fun p =>
                p.1 - (fitAlpha pairs + fitBeta pairs * p.2))).sum
          + (2 * (fitBeta pairs - b))
            * (pairs.map (fun p =>
                (p.1 - (fitAlpha pairs + fitBeta pairs * p.2)) * p.2)).sum) := by
    rw [← List.sum_map_mul_left, ← List.sum_map_mul_left, ← sum_map_addQ,
      ← sum_map_addQ, ← sum_map_addQ]
    refine congrArg List.sum (List.map_congr_left ?_)
    intro p _
    dsimp only
    ring
  have he1 : (pairs.map (fun p =>
      p.1 - (fitAlpha pairs + fitBeta pairs * p.2))).sum = 0 :=
    residuals_sum_eq_zero pairs hn
  have he2 := residuals_dot_x_eq_zero pairs hn hden
  have hnn : 0 ≤ (pairs.map (fun p =>
      ((fitAlpha pairs - a) + (fitBeta pairs - b) * p.2) ^ 2)).sum := by
    apply List.sum_nonneg
    intro x hx
    rcases List.mem_map.mp hx with ⟨p, _, rfl⟩
    positivity
  have hres : ((residualsOf pairs).map (fun e => e ^ 2)).sum
      = (pairs.map (fun p =>
          (p.1 - (fitAlpha pairs + fitBeta pairs * p.2)) ^ 2)).sum := by
    rw [residualsOf, List.map_map]
    rfl
  rw [hres, hsum, he1, he2]
  linarith

/-! ## Claim theorems: idiosyncratic volatility -/

/-- C4: calculate_idio_vol computes simple daily percent-change returns
for both series, aligns them on the intersection of their dates, and
returns both fields absent whenever fewer than 30 aligned observations
remain; otherwise total_vol is the sample standard deviation of the
aligned ticker returns times sqrt(252) times 100 and idio_vol is the
same annualization of the residuals ticker - (alpha + beta * market),
where alpha and beta minimize the squared-residual sum (first-degree
least squares) whenever the market returns are not all equal; the dates
of the ticker history are distinct, as in a pandas date index. -/
theorem idio_vol_spec (t m : List (ℕ × ℚ))
    (hndt : (t.map Prod.fst).Nodup) :
    ((alignReturns (dailyReturns t) (dailyReturns m)).length < 30 →
      calculate_idio_vol t m = ⟨none, none⟩)
    ∧ (30 ≤ (alignReturns (dailyReturns t) (dailyReturns m)).length →
      calculate_idio_vol t m
        = ⟨some (Real.sqrt (sampleVar (residualsOf (alignReturns
              (dailyReturns t) (dailyReturns m))))
            * Real.sqrt 252 * 100),
           some (Real.sqrt (sampleVar ((alignReturns (dailyReturns t)
              (dailyReturns m)).map Prod.fst))
            * Real.sqrt 252 * 100)⟩)
    ∧ (fitDen (alignReturns (dailyReturns t) (dailyReturns m)) ≠ 0 →
       ∀ a b : ℚ,
        ((residualsOf (alignReturns (dailyReturns t) (dailyReturns m))).map
            (fun e => e ^ 2)).sum
          ≤ ((alignReturns (dailyReturns t) (dailyReturns m)).map
              (fun p => (p.1 - (a + b * p.2)) ^ 2)).sum) := by
  refine ⟨?_, ?_, ?_⟩
  · intro h
    rw [calculate_idio_vol]
    by_cases hg : t.length < 30 ∨ m.length < 30
    · rw [if_pos hg]
    · rw [if_neg hg, if_pos h]
  · intro h30
    have hta : (alignReturns (dailyReturns t) (dailyReturns m)).length
        ≤ t.length - 1 := by
      calc (alignReturns (dailyReturns t) (dailyReturns m)).length
          ≤ (dailyReturns t).length := List.length_filterMap_le _ _
        _ = t.length - 1 := dailyReturns_length t
    have hma : (alignReturns (dailyReturns t) (dailyReturns m)).length
        ≤ m.length - 1 := by
      calc (alignReturns (dailyReturns t) (dailyReturns m)).length
          ≤ (dailyReturns m).length :=
            alignReturns_length_le_right _ _ (dailyReturns_keys_nodup t hndt)
        _ = m.length - 1 := dailyReturns_length m
    have hg : ¬(t.length < 30 ∨ m.length < 30) := by
      push_neg
      omega
    rw [calculate_idio_vol, if_neg hg, if_neg (by omega)]
    rfl
  · intro hden a b
    have hn : alignReturns (dailyReturns t) (dailyReturns m) ≠ [] := by
      intro he
      apply hden
      rw [he]
      rfl
    exact least_squares_optimal _ hn hden a b

/-- Concrete 31-day close history with distinct dates and nonconstant
returns, shared as ticker and market input of the volatility witness. -/
def exHistW : List (ℕ × ℚ) := [(0, 1), (1, 2), (2, 8), (3, 16), (4, 64), (5, 128), (6, 512), (7, 1024), (8, 4096), (9, 8192), (10, 32768), (11, 65536), (12, 262144), (13, 524288), (14, 2097152), (15, 4194304), (16, 16777216), (17, 33554432), (18, 134217728), (19, 268435456), (20, 1073741824), (21, 2147483648), (22, 8589934592), (23, 17179869184), (24, 68719476736), (25, 137438953472), (26, 549755813888), (27, 1099511627776), (28, 4398046511104), (29, 8796093022208), (30, 35184372088832)]

theorem idio_vol_spec_witness :
    (exHistW.map Prod.fst).Nodup
    ∧ 30 ≤ (alignReturns (dailyReturns exHistW) (dailyReturns exHistW)).length
    ∧ (calculate_idio_vol exHistW exHistW).total_vol.isSome = true
    ∧ (calculate_idio_vol exHistW exHistW).idio_vol.isSome = true := by
  have h := (idio_vol_spec exHistW exHistW (by decide)).2.1 (by decide)
  refine ⟨by decide, by decide, ?_, ?_⟩
  · rw [h]
    rfl
  · rw [h]
    rfl
